import Mathlib

/-!
# Verification of the micrograd scalar autograd engine

A shallow embedding of the micrograd engine: a computation graph of scalar
nodes built as an arena (`List Node`, a node's operands are indices of
earlier nodes), the operator set that extends the graph, the post-order
depth-first topological sort with a visited set, and the backward pass that
seeds the terminal gradient and folds each node's local-gradient rule over
the reverse post-order.

Numeric values are modelled by `ℚ` (an exact stand-in for the engine's real
arithmetic); the transcendental forward maps `tanh` and `exp` are abstract
function parameters, since every property proved here is about the graph
structure and the symbolic gradient rules, not about the numerics of those
two maps.

The engine itself (`micrograd/value.py`, `micrograd/nn.py`) is not part of
the source tree; its behaviour is modelled from the specification, as noted
on each definition.
-/

namespace Micrograd

/-- Modelled from the spec: the operator tag recorded on each node (`_op`),
together with the operand indices (`_prev`). `powc` carries the constant
integer exponent; `leaf` marks input/parameter/constant nodes. -/
inductive Op where
  | leaf : Op
  | add : Nat → Nat → Op
  | mul : Nat → Nat → Op
  | powc : Nat → Int → Op
  | tanhOp : Nat → Op
  | expOp : Nat → Op
  | negOp : Nat → Op
deriving DecidableEq, Repr

/-- Modelled from the spec: one scalar graph node (`Value`): forward value
`data`, accumulated gradient `grad`, and the operation that produced it. -/
structure Node where
  data : ℚ
  grad : ℚ
  op : Op
deriving DecidableEq, Repr

instance : Inhabited Node := ⟨⟨0, 0, Op.leaf⟩⟩

/-- The computation graph as an arena: node `i` is the `i`-th list entry,
and a well-formed node's operands are indices strictly below its own. -/
abbrev Graph := List Node

/-- The ordered operand indices of an operation. -/
def operandsOf : Op → List Nat
  | Op.leaf => []
  | Op.add a b => [a, b]
  | Op.mul a b => [a, b]
  | Op.powc a _ => [a]
  | Op.tanhOp a => [a]
  | Op.expOp a => [a]
  | Op.negOp a => [a]

/-- Node lookup by index (default node for out-of-range indices). -/
def nodeAt : Graph → Nat → Node
  | [], _ => default
  | n :: _, 0 => n
  | _ :: g, i + 1 => nodeAt g i

/-- Replace the node at an index (no-op when out of range). -/
def setNode : Graph → Nat → Node → Graph
  | [], _, _ => []
  | _ :: g, 0, x => x :: g
  | n :: g, i + 1, x => n :: setNode g i x

/-- The forward value stored at an index. -/
def dataAt (g : Graph) (i : Nat) : ℚ := (nodeAt g i).data

/-- The accumulated gradient stored at an index. -/
def gradAt (g : Graph) (i : Nat) : ℚ := (nodeAt g i).grad

/-- The operation tag stored at an index. -/
def opAt (g : Graph) (i : Nat) : Op := (nodeAt g i).op

/-- Gradient accumulation `node.grad += d` — the only write the backward
engine performs on operand gradients. -/
def updGrad (g : Graph) (i : Nat) (d : ℚ) : Graph :=
  setNode g i { nodeAt g i with grad := (nodeAt g i).grad + d }

/-- Gradient assignment (overwrite), used only for the terminal seed
`terminal.grad = 1.0`. -/
def setGrad (g : Graph) (i : Nat) (x : ℚ) : Graph :=
  setNode g i { nodeAt g i with grad := x }

/-- Boolean well-formedness check: every operand index is strictly below
its node's index, so the graph is a DAG by construction. -/
def wfB (g : Graph) : Bool :=
  (List.range g.length).all fun i => (operandsOf (opAt g i)).all fun c => c < i

/-- Well-formedness of a graph (decidable via `wfB`). -/
@[reducible] def Wf (g : Graph) : Prop := wfB g = true

/-- Modelled from the spec: leaf-node construction — wrap a number in a new
node with gradient `0` and no operands. -/
def mkLeaf (g : Graph) (x : ℚ) : Graph := g ++ [⟨x, 0, Op.leaf⟩]

/-- Modelled from the spec: the `add` operator — allocate a node holding
`a.data + b.data`, gradient `0`, tagged with its operands. -/
def vadd (g : Graph) (a b : Nat) : Graph :=
  g ++ [⟨dataAt g a + dataAt g b, 0, Op.add a b⟩]

/-- Modelled from the spec: the `multiply` operator. -/
def vmul (g : Graph) (a b : Nat) : Graph :=
  g ++ [⟨dataAt g a * dataAt g b, 0, Op.mul a b⟩]

/-- Modelled from the spec: the `power` operator, exponent a constant
integer (never another node). -/
def vpow (g : Graph) (a : Nat) (k : Int) : Graph :=
  g ++ [⟨dataAt g a ^ k, 0, Op.powc a k⟩]

/-- Modelled from the spec: the `tanh` activation; `tf` is the abstract
forward map. -/
def vtanh (tf : ℚ → ℚ) (g : Graph) (a : Nat) : Graph :=
  g ++ [⟨tf (dataAt g a), 0, Op.tanhOp a⟩]

/-- Modelled from the spec: the `exp` activation; `ef` is the abstract
forward map. -/
def vexp (ef : ℚ → ℚ) (g : Graph) (a : Nat) : Graph :=
  g ++ [⟨ef (dataAt g a), 0, Op.expOp a⟩]

/-- Modelled from the spec: the unary `negate` operator. -/
def vneg (g : Graph) (a : Nat) : Graph :=
  g ++ [⟨-dataAt g a, 0, Op.negOp a⟩]

/-- Modelled from the spec: subtraction `a - b` is the composition of
`negate` and `add` — it first allocates the negation of `b` (index
`g.length`) and then adds `a` to it. -/
def vsub (g : Graph) (a b : Nat) : Graph :=
  vadd (vneg g b) a g.length

/-- Modelled from the spec: division `a / b` is the composition of
`power (-1)` and `multiply` — it first allocates `b ** (-1)` (index
`g.length`) and then multiplies `a` by it. -/
def vdiv (g : Graph) (a b : Nat) : Graph :=
  vmul (vpow g b (-1)) a g.length

/-- Modelled from the spec: one node's `local_backward` rule — reading the
node's own gradient `out.grad`, accumulate the analytic local derivative
into each operand's gradient. A leaf's rule is a no-op. -/
def localBackward (g : Graph) (i : Nat) : Graph :=
  match (nodeAt g i).op with
  | Op.leaf => g
  | Op.add a b => updGrad (updGrad g a (gradAt g i)) b (gradAt g i)
  | Op.mul a b =>
      updGrad (updGrad g a (dataAt g b * gradAt g i)) b (dataAt g a * gradAt g i)
  | Op.powc a k => updGrad g a ((k : ℚ) * dataAt g a ^ (k - 1) * gradAt g i)
  | Op.tanhOp a => updGrad g a ((1 - dataAt g i ^ 2) * gradAt g i)
  | Op.expOp a => updGrad g a (dataAt g i * gradAt g i)
  | Op.negOp a => updGrad g a (-gradAt g i)

/-- Modelled from the spec: post-order depth-first traversal with a visited
set. State is `(visited, topo)`; a node is marked visited on entry, its
operands are explored first, and it is appended to the post-order once
fully explored. The `< n` guards restate the graph invariant that operand
indices are strictly below the node's index (true of every constructible
graph) and serve as the termination measure. -/
def dfs (g : Graph) (n : Nat) (st : List Nat × List Nat) : List Nat × List Nat :=
  if n ∈ st.1 then st
  else
    let st1 : List Nat × List Nat := (n :: st.1, st.2)
    let st2 : List Nat × List Nat :=
      match operandsOf (opAt g n) with
      | [] => st1
      | [a] => if _h : a < n then dfs g a st1 else st1
      | [a, b] => if _h : a < n ∧ b < n then dfs g b (dfs g a st1) else st1
      | _ :: _ :: _ :: _ => st1
    (st2.1, st2.2 ++ [n])
termination_by n
decreasing_by
  · exact _h
  · exact _h.1
  · exact _h.2

/-- Modelled from the spec: the post-order topological order of the graph
reachable from the terminal (terminal last). -/
def topoOrder (g : Graph) (t : Nat) : List Nat := (dfs g t ([], [])).2

/-- Modelled from the spec: `backward(terminal)` — seed the terminal's
gradient to `1` unconditionally, then invoke each node's `local_backward`
in reverse post-order (terminal first, leaves last). -/
def backward (g : Graph) (t : Nat) : Graph :=
  (topoOrder g t).reverse.foldl localBackward (setGrad g t 1)

/-! ## Basic arena lemmas -/

theorem length_setNode (g : Graph) (i : Nat) (x : Node) :
    (setNode g i x).length = g.length := by
  induction g generalizing i with
  | nil => rfl
  | cons n g ih =>
    cases i with
    | zero => rfl
    | succ i => simpa [setNode] using ih i

theorem setNode_of_ge (g : Graph) (i : Nat) (x : Node) (h : g.length ≤ i) :
    setNode g i x = g := by
  induction g generalizing i with
  | nil => rfl
  | cons n g ih =>
    cases i with
    | zero => simp at h
    | succ i =>
      simp only [setNode]
      rw [ih i (by simp only [List.length_cons] at h; omega)]

theorem nodeAt_setNode_self (g : Graph) (i : Nat) (x : Node) (h : i < g.length) :
    nodeAt (setNode g i x) i = x := by
  induction g generalizing i with
  | nil => simp at h
  | cons n g ih =>
    cases i with
    | zero => rfl
    | succ i => exact ih i (by simpa using h)

theorem nodeAt_setNode_ne (g : Graph) (i j : Nat) (x : Node) (h : j ≠ i) :
    nodeAt (setNode g i x) j = nodeAt g j := by
  induction g generalizing i j with
  | nil => rfl
  | cons n g ih =>
    cases i with
    | zero => cases j with
      | zero => exact absurd rfl h
      | succ j => rfl
    | succ i =>
      cases j with
      | zero => rfl
      | succ j => exact ih i j (by omega)

theorem nodeAt_of_ge (g : Graph) (i : Nat) (h : g.length ≤ i) :
    nodeAt g i = default := by
  induction g generalizing i with
  | nil => cases i <;> rfl
  | cons n g ih =>
    cases i with
    | zero => simp at h
    | succ i => exact ih i (by simpa using h)

theorem nodeAt_append_lt (g h : Graph) (i : Nat) (hi : i < g.length) :
    nodeAt (g ++ h) i = nodeAt g i := by
  induction g generalizing i with
  | nil => simp at hi
  | cons n g ih =>
    cases i with
    | zero => rfl
    | succ i => exact ih i (by simpa using hi)

theorem nodeAt_append_len (g : Graph) (x : Node) :
    nodeAt (g ++ [x]) g.length = x := by
  induction g with
  | nil => rfl
  | cons n g ih => simpa using ih

theorem length_updGrad (g : Graph) (i : Nat) (d : ℚ) :
    (updGrad g i d).length = g.length := length_setNode ..

theorem length_setGrad (g : Graph) (i : Nat) (x : ℚ) :
    (setGrad g i x).length = g.length := length_setNode ..

theorem gradAt_updGrad_self (g : Graph) (i : Nat) (d : ℚ) (h : i < g.length) :
    gradAt (updGrad g i d) i = gradAt g i + d := by
  simp [gradAt, updGrad, nodeAt_setNode_self g i _ h]

theorem gradAt_updGrad_ne (g : Graph) (i j : Nat) (d : ℚ) (h : j ≠ i) :
    gradAt (updGrad g i d) j = gradAt g j := by
  simp [gradAt, updGrad, nodeAt_setNode_ne g i j _ h]

theorem dataAt_updGrad (g : Graph) (i j : Nat) (d : ℚ) :
    dataAt (updGrad g i d) j = dataAt g j := by
  rcases eq_or_ne j i with rfl | h
  · rcases lt_or_ge j g.length with hl | hl
    · simp [dataAt, updGrad, nodeAt_setNode_self g j _ hl]
    · simp [dataAt, updGrad, setNode_of_ge _ _ _ hl]
  · simp [dataAt, updGrad, nodeAt_setNode_ne g i j _ h]

theorem opAt_updGrad (g : Graph) (i j : Nat) (d : ℚ) :
    opAt (updGrad g i d) j = opAt g j := by
  rcases eq_or_ne j i with rfl | h
  · rcases lt_or_ge j g.length with hl | hl
    · simp [opAt, updGrad, nodeAt_setNode_self g j _ hl]
    · simp [opAt, updGrad, setNode_of_ge _ _ _ hl]
  · simp [opAt, updGrad, nodeAt_setNode_ne g i j _ h]

theorem gradAt_setGrad_self (g : Graph) (i : Nat) (x : ℚ) (h : i < g.length) :
    gradAt (setGrad g i x) i = x := by
  simp [gradAt, setGrad, nodeAt_setNode_self g i _ h]

theorem gradAt_setGrad_ne (g : Graph) (i j : Nat) (x : ℚ) (h : j ≠ i) :
    gradAt (setGrad g i x) j = gradAt g j := by
  simp [gradAt, setGrad, nodeAt_setNode_ne g i j _ h]

theorem dataAt_setGrad (g : Graph) (i j : Nat) (x : ℚ) :
    dataAt (setGrad g i x) j = dataAt g j := by
  rcases eq_or_ne j i with rfl | h
  · rcases lt_or_ge j g.length with hl | hl
    · simp [dataAt, setGrad, nodeAt_setNode_self g j _ hl]
    · simp [dataAt, setGrad, setNode_of_ge _ _ _ hl]
  · simp [dataAt, setGrad, nodeAt_setNode_ne g i j _ h]

theorem opAt_setGrad (g : Graph) (i j : Nat) (x : ℚ) :
    opAt (setGrad g i x) j = opAt g j := by
  rcases eq_or_ne j i with rfl | h
  · rcases lt_or_ge j g.length with hl | hl
    · simp [opAt, setGrad, nodeAt_setNode_self g j _ hl]
    · simp [opAt, setGrad, setNode_of_ge _ _ _ hl]
  · simp [opAt, setGrad, nodeAt_setNode_ne g i j _ h]

theorem length_localBackward (g : Graph) (i : Nat) :
    (localBackward g i).length = g.length := by
  unfold localBackward
  split <;> simp [length_updGrad]

theorem opAt_localBackward (g : Graph) (i j : Nat) :
    opAt (localBackward g i) j = opAt g j := by
  unfold localBackward
  split <;> simp [opAt_updGrad]

theorem dataAt_localBackward (g : Graph) (i j : Nat) :
    dataAt (localBackward g i) j = dataAt g j := by
  unfold localBackward
  split <;> simp [dataAt_updGrad]

theorem gradAt_localBackward_not_operand (g : Graph) (i j : Nat)
    (h : ∀ c ∈ operandsOf (opAt g i), c ≠ j) :
    gradAt (localBackward g i) j = gradAt g j := by
  have hop : opAt g i = (nodeAt g i).op := rfl
  unfold localBackward
  split
  · rfl
  · rename_i a b heq
    rw [hop, heq] at h
    rw [gradAt_updGrad_ne _ _ _ _ (fun e => h b (by simp [operandsOf]) e.symm),
      gradAt_updGrad_ne _ _ _ _ (fun e => h a (by simp [operandsOf]) e.symm)]
  · rename_i a b heq
    rw [hop, heq] at h
    rw [gradAt_updGrad_ne _ _ _ _ (fun e => h b (by simp [operandsOf]) e.symm),
      gradAt_updGrad_ne _ _ _ _ (fun e => h a (by simp [operandsOf]) e.symm)]
  · rename_i a k heq
    rw [hop, heq] at h
    rw [gradAt_updGrad_ne _ _ _ _ (fun e => h a (by simp [operandsOf]) e.symm)]
  · rename_i a heq
    rw [hop, heq] at h
    rw [gradAt_updGrad_ne _ _ _ _ (fun e => h a (by simp [operandsOf]) e.symm)]
  · rename_i a heq
    rw [hop, heq] at h
    rw [gradAt_updGrad_ne _ _ _ _ (fun e => h a (by simp [operandsOf]) e.symm)]
  · rename_i a heq
    rw [hop, heq] at h
    rw [gradAt_updGrad_ne _ _ _ _ (fun e => h a (by simp [operandsOf]) e.symm)]

theorem localBackward_add (h : Graph) (i a b : Nat) (hop : opAt h i = Op.add a b) :
    localBackward h i = updGrad (updGrad h a (gradAt h i)) b (gradAt h i) := by
  rw [localBackward, show (nodeAt h i).op = Op.add a b from hop]

theorem localBackward_mul (h : Graph) (i a b : Nat) (hop : opAt h i = Op.mul a b) :
    localBackward h i
      = updGrad (updGrad h a (dataAt h b * gradAt h i)) b (dataAt h a * gradAt h i) := by
  rw [localBackward, show (nodeAt h i).op = Op.mul a b from hop]

theorem localBackward_pow (h : Graph) (i a : Nat) (k : Int)
    (hop : opAt h i = Op.powc a k) :
    localBackward h i = updGrad h a ((k : ℚ) * dataAt h a ^ (k - 1) * gradAt h i) := by
  rw [localBackward, show (nodeAt h i).op = Op.powc a k from hop]

theorem localBackward_tanh (h : Graph) (i a : Nat) (hop : opAt h i = Op.tanhOp a) :
    localBackward h i = updGrad h a ((1 - dataAt h i ^ 2) * gradAt h i) := by
  rw [localBackward, show (nodeAt h i).op = Op.tanhOp a from hop]

theorem localBackward_exp (h : Graph) (i a : Nat) (hop : opAt h i = Op.expOp a) :
    localBackward h i = updGrad h a (dataAt h i * gradAt h i) := by
  rw [localBackward, show (nodeAt h i).op = Op.expOp a from hop]

theorem localBackward_neg (h : Graph) (i a : Nat) (hop : opAt h i = Op.negOp a) :
    localBackward h i = updGrad h a (-gradAt h i) := by
  rw [localBackward, show (nodeAt h i).op = Op.negOp a from hop]

theorem opAt_of_ge (g : Graph) (i : Nat) (h : g.length ≤ i) : opAt g i = Op.leaf := by
  rw [opAt, nodeAt_of_ge g i h]; rfl

theorem wf_spec (g : Graph) (hw : Wf g) :
    ∀ i, ∀ c ∈ operandsOf (opAt g i), c < i := by
  intro i c hc
  rcases lt_or_ge i g.length with hi | hi
  · rw [Wf, wfB, List.all_eq_true] at hw
    have h1 := hw i (List.mem_range.mpr hi)
    rw [List.all_eq_true] at h1
    simpa using h1 c hc
  · rw [opAt_of_ge g i hi] at hc
    simp [operandsOf] at hc

theorem operandsOf_shape (o : Op) :
    operandsOf o = [] ∨ (∃ a, operandsOf o = [a]) ∨ ∃ a b, operandsOf o = [a, b] := by
  cases o <;> simp [operandsOf]

/-! ## Unfolding lemmas for the depth-first traversal -/

theorem dfs_of_mem (g : Graph) (n : Nat) (st : List Nat × List Nat) (h : n ∈ st.1) :
    dfs g n st = st := by
  rw [dfs]; simp [h]

theorem dfs_of_nil (g : Graph) (n : Nat) (st : List Nat × List Nat)
    (h : n ∉ st.1) (hc : operandsOf (opAt g n) = []) :
    dfs g n st = (n :: st.1, st.2 ++ [n]) := by
  rw [dfs]; simp [h, hc]

theorem dfs_of_one (g : Graph) (n a : Nat) (st : List Nat × List Nat)
    (h : n ∉ st.1) (hc : operandsOf (opAt g n) = [a]) (ha : a < n) :
    dfs g n st = ((dfs g a (n :: st.1, st.2)).1, (dfs g a (n :: st.1, st.2)).2 ++ [n]) := by
  rw [dfs]; simp [h, hc, ha]

theorem dfs_of_two (g : Graph) (n a b : Nat) (st : List Nat × List Nat)
    (h : n ∉ st.1) (hc : operandsOf (opAt g n) = [a, b]) (ha : a < n) (hb : b < n) :
    dfs g n st = ((dfs g b (dfs g a (n :: st.1, st.2))).1,
      (dfs g b (dfs g a (n :: st.1, st.2))).2 ++ [n]) := by
  rw [dfs]; simp [h, hc, ha, hb]

/-! ## The extension relation satisfied by one `dfs` call

`ExtS b s t` says state `t` extends state `s` the way a `dfs` call bounded
by node index `b` does: the visited set only grows, the post-order list
only gains a suffix, every new post-order entry was unvisited before, the
new visited elements are exactly the new post-order elements, and every
new element has index at most `b`. -/

structure ExtS (b : Nat) (s t : List Nat × List Nat) : Prop where
  vis_mono : ∀ x ∈ s.1, x ∈ t.1
  topo_app : ∃ l, t.2 = s.2 ++ l
  topo_new : ∀ x ∈ t.2, x ∈ s.2 ∨ x ∉ s.1
  vis_iff : ∀ x, x ∈ t.1 ↔ x ∈ s.1 ∨ x ∈ t.2
  vis_le : ∀ x ∈ t.1, x ∈ s.1 ∨ x ≤ b
  topo_le : ∀ x ∈ t.2, x ∈ s.2 ∨ x ≤ b

theorem extS_refl (b : Nat) (s : List Nat × List Nat) (hs : ∀ x ∈ s.2, x ∈ s.1) :
    ExtS b s s where
  vis_mono := fun _ hx => hx
  topo_app := ⟨[], by simp⟩
  topo_new := fun x hx => Or.inl hx
  vis_iff := fun x => ⟨Or.inl, fun h => h.elim id (hs x)⟩
  vis_le := fun _ hx => Or.inl hx
  topo_le := fun _ hx => Or.inl hx

theorem extS_topo_sub (b : Nat) (s t : List Nat × List Nat) (h : ExtS b s t) :
    ∀ x ∈ t.2, x ∈ t.1 :=
  fun x hx => (h.vis_iff x).mpr (Or.inr hx)

theorem extS_trans (b1 b2 b : Nat) (s t u : List Nat × List Nat)
    (hb1 : b1 ≤ b) (hb2 : b2 ≤ b) (h1 : ExtS b1 s t) (h2 : ExtS b2 t u) :
    ExtS b s u where
  vis_mono := fun x hx => h2.vis_mono x (h1.vis_mono x hx)
  topo_app := by
    obtain ⟨l1, e1⟩ := h1.topo_app
    obtain ⟨l2, e2⟩ := h2.topo_app
    exact ⟨l1 ++ l2, by rw [e2, e1, List.append_assoc]⟩
  topo_new := by
    intro x hx
    rcases h2.topo_new x hx with h | h
    · exact h1.topo_new x h
    · right
      intro hx1
      exact h (h1.vis_mono x hx1)
  vis_iff := by
    intro x
    obtain ⟨l2, e2⟩ := h2.topo_app
    constructor
    · intro hx
      rcases (h2.vis_iff x).mp hx with hx | hx
      · rcases (h1.vis_iff x).mp hx with hx | hx
        · exact Or.inl hx
        · exact Or.inr (by rw [e2]; exact List.mem_append_left _ hx)
      · exact Or.inr hx
    · intro hx
      rcases hx with hx | hx
      · exact h2.vis_mono x (h1.vis_mono x hx)
      · exact (h2.vis_iff x).mpr (Or.inr hx)
  vis_le := by
    intro x hx
    rcases h2.vis_le x hx with h | h
    · rcases h1.vis_le x h with h | h
      · exact Or.inl h
      · exact Or.inr (le_trans h hb1)
    · exact Or.inr (le_trans h hb2)
  topo_le := by
    intro x hx
    rcases h2.topo_le x hx with h | h
    · rcases h1.topo_le x h with h | h
      · exact Or.inl h
      · exact Or.inr (le_trans h hb1)
    · exact Or.inr (le_trans h hb2)

theorem extS_shell (b n : Nat) (st st2 : List Nat × List Nat)
    (hn : n ∉ st.1) (hb : b ≤ n) (h2 : ExtS b (n :: st.1, st.2) st2) :
    ExtS n st (st2.1, st2.2 ++ [n]) where
  vis_mono := fun x hx => h2.vis_mono x (List.mem_cons_of_mem n hx)
  topo_app := by
    obtain ⟨l, e⟩ := h2.topo_app
    exact ⟨l ++ [n], by simp only [e]; rw [List.append_assoc]⟩
  topo_new := by
    intro x hx
    rcases List.mem_append.mp hx with hx | hx
    · rcases h2.topo_new x hx with h | h
      · exact Or.inl h
      · exact Or.inr fun h1 => h (List.mem_cons_of_mem n h1)
    · right
      rw [List.mem_singleton.mp hx]
      exact hn
  vis_iff := by
    intro x
    constructor
    · intro hx
      rcases (h2.vis_iff x).mp hx with hx | hx
      · rcases List.mem_cons.mp hx with hx | hx
        · exact Or.inr (by rw [hx]; simp)
        · exact Or.inl hx
      · exact Or.inr (List.mem_append_left _ hx)
    · intro hx
      rcases hx with hx | hx
      · exact h2.vis_mono x (List.mem_cons_of_mem n hx)
      · rcases List.mem_append.mp hx with hx | hx
        · exact (h2.vis_iff x).mpr (Or.inr hx)
        · rw [List.mem_singleton.mp hx]
          exact h2.vis_mono n (List.mem_cons_self n _)
  vis_le := by
    intro x hx
    rcases h2.vis_le x hx with h | h
    · rcases List.mem_cons.mp h with h | h
      · exact Or.inr (le_of_eq h)
      · exact Or.inl h
    · exact Or.inr (le_trans h hb)
  topo_le := by
    intro x hx
    rcases List.mem_append.mp hx with hx | hx
    · rcases h2.topo_le x hx with h | h
      · exact Or.inl h
      · exact Or.inr (le_trans h hb)
    · exact Or.inr (le_of_eq (List.mem_singleton.mp hx))

theorem dfs_ext (g : Graph) : ∀ (n : Nat) (st : List Nat × List Nat),
    (∀ x ∈ st.2, x ∈ st.1) → ExtS n st (dfs g n st) := by
  intro n
  induction n using Nat.strong_induction_on with
  | _ n ih =>
    intro st hsub
    by_cases hn : n ∈ st.1
    · rw [dfs_of_mem g n st hn]
      exact extS_refl n st hsub
    · have hsub1 : ∀ x ∈ (n :: st.1, st.2).2, x ∈ (n :: st.1, st.2).1 :=
        fun x hx => List.mem_cons_of_mem n (hsub x hx)
      rcases operandsOf_shape (opAt g n) with hc | ⟨a, hc⟩ | ⟨a, b, hc⟩
      · rw [dfs_of_nil g n st hn hc]
        exact extS_shell 0 n st (n :: st.1, st.2) hn (Nat.zero_le n)
          (extS_refl 0 _ hsub1)
      · by_cases ha : a < n
        · rw [dfs_of_one g n a st hn hc ha]
          exact extS_shell a n st _ hn (le_of_lt ha) (ih a ha _ hsub1)
        · rw [dfs]
          simp only [hn, if_false, hc, ha, dite_false]
          exact extS_shell 0 n st (n :: st.1, st.2) hn (Nat.zero_le n)
            (extS_refl 0 _ hsub1)
      · by_cases hab : a < n ∧ b < n
        · rw [dfs_of_two g n a b st hn hc hab.1 hab.2]
          have h1 := ih a hab.1 (n :: st.1, st.2) hsub1
          have h2 := ih b hab.2 _ (extS_topo_sub a _ _ h1)
          exact extS_shell n n st _ hn le_rfl
            (extS_trans a b n _ _ _ (le_of_lt hab.1) (le_of_lt hab.2) h1 h2)
        · rw [dfs]
          simp only [hn, if_false, hc, hab, dite_false]
          exact extS_shell 0 n st (n :: st.1, st.2) hn (Nat.zero_le n)
            (extS_refl 0 _ hsub1)

theorem extS_gray (b : Nat) (s t : List Nat × List Nat) (h : ExtS b s t) :
    ∀ x, (x ∈ t.1 ∧ x ∉ t.2) ↔ (x ∈ s.1 ∧ x ∉ s.2) := by
  intro x
  obtain ⟨l, e⟩ := h.topo_app
  constructor
  · rintro ⟨h1, h2⟩
    rcases (h.vis_iff x).mp h1 with h1 | h1
    · exact ⟨h1, fun hx => h2 (by rw [e]; exact List.mem_append_left _ hx)⟩
    · exact absurd h1 h2
  · rintro ⟨h1, h2⟩
    refine ⟨h.vis_mono x h1, fun hx => ?_⟩
    rcases h.topo_new x hx with hx | hx
    · exact h2 hx
    · exact hx h1

/-! ## The well-ordering invariant of the post-order

`InvS` is the invariant maintained by the traversal: the post-order list
has no duplicates, it only contains visited nodes, and every recorded
node's operands are recorded strictly before it. -/

structure InvS (g : Graph) (st : List Nat × List Nat) : Prop where
  nodup : st.2.Nodup
  sub : ∀ x ∈ st.2, x ∈ st.1
  order : ∀ u ∈ st.2, ∀ c ∈ operandsOf (opAt g u),
    c ∈ st.2 ∧ st.2.indexOf c < st.2.indexOf u

theorem invS_shell (g : Graph) (b n : Nat) (st st2 : List Nat × List Nat)
    (hn : n ∉ st.1) (hsub : ∀ x ∈ st.2, x ∈ st.1)
    (hext : ExtS b (n :: st.1, st.2) st2) (hinv2 : InvS g st2)
    (hops : ∀ c ∈ operandsOf (opAt g n), c ∈ st2.2) :
    InvS g (st2.1, st2.2 ++ [n]) := by
  have hn2 : n ∉ st2.2 := by
    intro hmem
    rcases hext.topo_new n hmem with h | h
    · exact hn (hsub n h)
    · exact h (List.mem_cons_self n st.1)
  refine ⟨?_, ?_, ?_⟩
  · rw [List.nodup_append]
    exact ⟨hinv2.nodup, List.nodup_singleton n,
      fun x hx hx' => hn2 ((List.mem_singleton.mp hx') ▸ hx)⟩
  · intro x hx
    rcases List.mem_append.mp hx with hx | hx
    · exact hinv2.sub x hx
    · rw [List.mem_singleton.mp hx]
      exact hext.vis_mono n (List.mem_cons_self n st.1)
  · intro u hu c hc
    rcases List.mem_append.mp hu with hu | hu
    · obtain ⟨hc2, hidx⟩ := hinv2.order u hu c hc
      refine ⟨List.mem_append_left _ hc2, ?_⟩
      rw [List.indexOf_append_of_mem hc2, List.indexOf_append_of_mem hu]
      exact hidx
    · rw [List.mem_singleton.mp hu] at hc ⊢
      have hc2 := hops c hc
      refine ⟨List.mem_append_left _ hc2, ?_⟩
      rw [List.indexOf_append_of_mem hc2, List.indexOf_append_of_not_mem hn2,
        List.indexOf_cons_self]
      have := List.indexOf_lt_length.mpr hc2
      omega

theorem dfs_inv (g : Graph) (hw : Wf g) : ∀ (n : Nat) (st : List Nat × List Nat),
    InvS g st → (∀ x ∈ st.1, x ∉ st.2 → n < x) →
    InvS g (dfs g n st) ∧ n ∈ (dfs g n st).2 := by
  intro n
  induction n using Nat.strong_induction_on with
  | _ n ih =>
    intro st hinv hgray
    by_cases hn : n ∈ st.1
    · rw [dfs_of_mem g n st hn]
      refine ⟨hinv, ?_⟩
      by_contra hmem
      exact absurd rfl (Nat.ne_of_lt (hgray n hn hmem))
    · have hinv1 : InvS g (n :: st.1, st.2) :=
        ⟨hinv.nodup, fun x hx => List.mem_cons_of_mem n (hinv.sub x hx), hinv.order⟩
      rcases operandsOf_shape (opAt g n) with hc | ⟨a, hc⟩ | ⟨a, b, hc⟩
      · rw [dfs_of_nil g n st hn hc]
        refine ⟨?_, by simp⟩
        have := invS_shell g 0 n st (n :: st.1, st.2) hn hinv.sub
          (extS_refl 0 _ hinv1.sub) hinv1 (by rw [hc]; intro c hc'; simp at hc')
        exact this
      · have ha : a < n := wf_spec g hw n a (by rw [hc]; simp)
        rw [dfs_of_one g n a st hn hc ha]
        have hgray1 : ∀ x ∈ (n :: st.1, st.2).1, x ∉ (n :: st.1, st.2).2 → a < x := by
          intro x hx hx'
          rcases List.mem_cons.mp hx with rfl | hx
          · exact ha
          · exact lt_trans ha (hgray x hx hx')
        obtain ⟨hinv2, hmem2⟩ := ih a ha (n :: st.1, st.2) hinv1 hgray1
        have hext := dfs_ext g a (n :: st.1, st.2) hinv1.sub
        refine ⟨?_, by simp⟩
        exact invS_shell g a n st _ hn hinv.sub hext hinv2
          (by rw [hc]; intro c hc'; rw [List.mem_singleton.mp hc']; exact hmem2)
      · have ha : a < n := wf_spec g hw n a (by rw [hc]; simp)
        have hb : b < n := wf_spec g hw n b (by rw [hc]; simp)
        rw [dfs_of_two g n a b st hn hc ha hb]
        have hgray1 : ∀ x ∈ (n :: st.1, st.2).1, x ∉ (n :: st.1, st.2).2 → a < x := by
          intro x hx hx'
          rcases List.mem_cons.mp hx with rfl | hx
          · exact ha
          · exact lt_trans ha (hgray x hx hx')
        obtain ⟨hinv2, hmem_a⟩ := ih a ha (n :: st.1, st.2) hinv1 hgray1
        have hext1 := dfs_ext g a (n :: st.1, st.2) hinv1.sub
        have hgray2 : ∀ x ∈ (dfs g a (n :: st.1, st.2)).1,
            x ∉ (dfs g a (n :: st.1, st.2)).2 → b < x := by
          intro x hx hx'
          have := (extS_gray a _ _ hext1 x).mp ⟨hx, hx'⟩
          rcases List.mem_cons.mp this.1 with rfl | hxx
          · exact hb
          · exact lt_trans hb (hgray x hxx this.2)
        obtain ⟨hinv3, hmem_b⟩ := ih b hb _ hinv2 hgray2
        have hext2 := dfs_ext g b (dfs g a (n :: st.1, st.2)) hinv2.sub
        have hext := extS_trans a b n _ _ _ (le_of_lt ha) (le_of_lt hb) hext1 hext2
        refine ⟨?_, by simp⟩
        refine invS_shell g n n st _ hn hinv.sub hext hinv3 ?_
        rw [hc]
        intro c hc'
        rcases List.mem_cons.mp hc' with rfl | hc'
        · obtain ⟨l, e⟩ := hext2.topo_app
          rw [e]
          exact List.mem_append_left _ hmem_a
        · rw [List.mem_singleton.mp hc']
          exact hmem_b

/-! ## The backward fold -/

theorem opAt_foldl_localBackward (l : List Nat) (h : Graph) (j : Nat) :
    opAt (l.foldl localBackward h) j = opAt h j := by
  induction l generalizing h with
  | nil => rfl
  | cons v l ihl => rw [List.foldl_cons, ihl, opAt_localBackward]

theorem dataAt_foldl_localBackward (l : List Nat) (h : Graph) (j : Nat) :
    dataAt (l.foldl localBackward h) j = dataAt h j := by
  induction l generalizing h with
  | nil => rfl
  | cons v l ihl => rw [List.foldl_cons, ihl, dataAt_localBackward]

theorem length_foldl_localBackward (l : List Nat) (h : Graph) :
    (l.foldl localBackward h).length = h.length := by
  induction l generalizing h with
  | nil => rfl
  | cons v l ihl => rw [List.foldl_cons, ihl, length_localBackward]

theorem gradAt_foldl_localBackward (l : List Nat) (h : Graph) (u : Nat)
    (hl : ∀ v ∈ l, ∀ c ∈ operandsOf (opAt h v), c ≠ u) :
    gradAt (l.foldl localBackward h) u = gradAt h u := by
  induction l generalizing h with
  | nil => rfl
  | cons v l ihl =>
    rw [List.foldl_cons,
      ihl (localBackward h v) (fun v' hv' c hc => by
        rw [opAt_localBackward] at hc
        exact hl v' (List.mem_cons_of_mem v hv') c hc),
      gradAt_localBackward_not_operand h v u (hl v (List.mem_cons_self v l))]

/-! ## Facts about the topological order -/

theorem topoOrder_invS (g : Graph) (t : Nat) (hw : Wf g) :
    InvS g (dfs g t ([], [])) ∧ t ∈ topoOrder g t := by
  have h0 : InvS g (([], []) : List Nat × List Nat) :=
    ⟨List.nodup_nil, by simp, by simp⟩
  exact dfs_inv g hw t ([], []) h0 (by simp)

theorem topoOrder_le (g : Graph) (t : Nat) : ∀ x ∈ topoOrder g t, x ≤ t := by
  intro x hx
  have hext := dfs_ext g t ([], []) (by simp)
  rcases hext.topo_le x hx with h | h
  · simp at h
  · exact h

theorem topoOrder_nodup (g : Graph) (t : Nat) (hw : Wf g) :
    (topoOrder g t).Nodup := (topoOrder_invS g t hw).1.nodup

theorem topoOrder_order (g : Graph) (t : Nat) (hw : Wf g) :
    ∀ u ∈ topoOrder g t, ∀ c ∈ operandsOf (opAt g u),
      c ∈ topoOrder g t ∧ (topoOrder g t).indexOf c < (topoOrder g t).indexOf u :=
  (topoOrder_invS g t hw).1.order

/-! ## Graph-building steps (a forward pass as data)

A forward pass of the external caller is a sequence of operator
applications on top of a base graph of already-existing (parameter)
leaves. -/

/-- One operator application of a forward pass. -/
inductive Step where
  | leaf : ℚ → Step
  | add : Nat → Nat → Step
  | mul : Nat → Nat → Step
  | powS : Nat → Int → Step
  | tanhS : Nat → Step
  | expS : Nat → Step
  | negS : Nat → Step
  | subS : Nat → Nat → Step
  | divS : Nat → Nat → Step
deriving DecidableEq, Repr

/-- Apply one building step to a graph. -/
def applyStep (tf ef : ℚ → ℚ) (g : Graph) : Step → Graph
  | Step.leaf x => mkLeaf g x
  | Step.add a b => vadd g a b
  | Step.mul a b => vmul g a b
  | Step.powS a k => vpow g a k
  | Step.tanhS a => vtanh tf g a
  | Step.expS a => vexp ef g a
  | Step.negS a => vneg g a
  | Step.subS a b => vsub g a b
  | Step.divS a b => vdiv g a b

/-- Run a whole forward pass (a list of building steps) on a base graph. -/
def buildFrom (tf ef : ℚ → ℚ) (g : Graph) (ss : List Step) : Graph :=
  ss.foldl (applyStep tf ef) g

/-! ## Neural building blocks (value-level model)

Modelled from the spec: a Neuron owns a fixed list of weight leaves and a
bias leaf and computes `tanh(sum(w_i * x_i) + bias)`; a Layer owns an
ordered list of Neurons; an MLP threads the input through its layers. The
model works at the level of the scalar values the nodes carry, which is
what the shape and arity claims are about; `tf` is the abstract `tanh`. -/

structure Neuron where
  weights : List ℚ
  bias : ℚ

/-- Modelled from the spec: weights-before-bias parameter list. -/
def Neuron.parameters (n : Neuron) : List ℚ := n.weights ++ [n.bias]

/-- Modelled from the spec: `tanh(sum(weight_i * input_i) + bias)`;
an arity mismatch between inputs and weights is a usage error, reported
(as `none`), never silently truncated or padded. -/
def Neuron.forward (tf : ℚ → ℚ) (n : Neuron) (xs : List ℚ) : Option ℚ :=
  if xs.length = n.weights.length then
    some (tf (((n.weights.zip xs).map fun p => p.1 * p.2).sum + n.bias))
  else none

structure Layer where
  neurons : List Neuron

/-- Modelled from the spec: the ordered list of each neuron's output on
the same inputs (fails when any neuron's forward fails). -/
def neuronsForward (tf : ℚ → ℚ) : List Neuron → List ℚ → Option (List ℚ)
  | [], _ => some []
  | n :: ns, xs =>
    match n.forward tf xs, neuronsForward tf ns xs with
    | some v, some vs => some (v :: vs)
    | _, _ => none

def Layer.forward (tf : ℚ → ℚ) (l : Layer) (xs : List ℚ) : Option (List ℚ) :=
  neuronsForward tf l.neurons xs

def Layer.parameters (l : Layer) : List ℚ :=
  l.neurons.foldr (fun n acc => n.parameters ++ acc) []

structure MLP where
  layers : List Layer

/-- Modelled from the spec: thread the input vector through all layers. -/
def layersForward (tf : ℚ → ℚ) : List Layer → List ℚ → Option (List ℚ)
  | [], xs => some xs
  | l :: ls, xs =>
    match l.forward tf xs with
    | some ys => layersForward tf ls ys
    | none => none

/-- An MLP forward result: a single value when the final layer has one
neuron, else the list of final-layer outputs. -/
inductive Out where
  | single : ℚ → Out
  | multi : List ℚ → Out
deriving DecidableEq

def MLP.forward (tf : ℚ → ℚ) (m : MLP) (xs : List ℚ) : Option Out :=
  (layersForward tf m.layers xs).map fun vs =>
    match vs with
    | [v] => Out.single v
    | vs => Out.multi vs

def MLP.parameters (m : MLP) : List ℚ :=
  m.layers.foldr (fun l acc => l.parameters ++ acc) []

/-- Modelled from the spec: a neuron with `inSize` weights and one bias,
drawn from the random stream `rnd` starting at position `s`. -/
def mkNeuron (rnd : Nat → ℚ) (s inSize : Nat) : Neuron :=
  ⟨(List.range inSize).map fun i => rnd (s + i), rnd (s + inSize)⟩

/-- Modelled from the spec: a layer of `nOut` neurons of arity `inSize`. -/
def mkLayer (rnd : Nat → ℚ) (s inSize nOut : Nat) : Layer :=
  ⟨(List.range nOut).map fun j => mkNeuron rnd (s + j * (inSize + 1)) inSize⟩

/-- Modelled from the spec: the chain of layers, each layer's width the
next layer's input arity. -/
def mkLayers (rnd : Nat → ℚ) (s inSize : Nat) : List Nat → List Layer
  | [] => []
  | nOut :: rest =>
    mkLayer rnd s inSize nOut :: mkLayers rnd (s + nOut * (inSize + 1)) nOut rest

/-- Modelled from the spec: `MLP(input_size, hidden_sizes, output_size)`. -/
def mkMLP (rnd : Nat → ℚ) (inputSize : Nat) (hiddenSizes : List Nat)
    (outputSize : Nat) : MLP :=
  ⟨mkLayers rnd 0 inputSize (hiddenSizes ++ [outputSize])⟩

/-! ## The demonstration dataset (from the notebook) -/

/-- The 8 input rows of the notebook's dataset. -/
def xData : List (List ℚ) :=
  [[1, -2, 3, 4], [-0.5, -1.5, 2.5, 3.5], [-2, -2, 2, 1], [0, 0, 0, 0],
   [5, -1, 0, -4], [-3, 2, 1, 0], [1, 1, -1, -1], [2.5, 2.5, -2.5, 2.5]]

/-- The notebook's labeling rule: `1 if sum(row) > 0 else -1`. -/
def labelOf (row : List ℚ) : ℤ := if row.sum > 0 then 1 else -1

/-- The notebook's label vector `y`. -/
def yData : List ℤ := xData.map labelOf

/-! ## Claim theorems -/

/-- C2: during `backward(terminal)`, nodes are processed in reverse
post-order: every node's operands appear strictly before it in the
post-order (so every consumer of a node is processed before that node in
the reversed order), and hence at the moment a node's `local_backward` is
invoked — i.e. after processing exactly the prefix of the reverse
post-order that precedes it — that node's gradient already carries its
final value. -/
theorem backward_consumers_first (g : Graph) (t : Nat) (hw : Wf g) :
    (∀ u ∈ topoOrder g t, ∀ c ∈ operandsOf (opAt g u),
       c ∈ topoOrder g t ∧ (topoOrder g t).indexOf c < (topoOrder g t).indexOf u)
    ∧ (∀ u l1 l2, (topoOrder g t).reverse = l1 ++ u :: l2 →
        gradAt (l1.foldl localBackward (setGrad g t 1)) u
          = gradAt (backward g t) u) := by
  refine ⟨topoOrder_order g t hw, ?_⟩
  intro u l1 l2 hsplit
  have htopo : topoOrder g t = l2.reverse ++ ([u] ++ l1.reverse) := by
    have h1 : topoOrder g t = (l1 ++ u :: l2).reverse := by
      rw [← hsplit, List.reverse_reverse]
    rw [h1]
    simp
  have hnd : (topoOrder g t).Nodup := topoOrder_nodup g t hw
  have hu_not_l2 : u ∉ l2.reverse := by
    rw [htopo, List.nodup_append] at hnd
    intro hmem
    exact hnd.2.2 hmem (by simp)
  have hidx_u : (topoOrder g t).indexOf u = l2.length := by
    rw [htopo, List.indexOf_append_of_not_mem hu_not_l2]
    simp [List.indexOf_cons_self]
  rw [backward, hsplit, List.foldl_append]
  have hside : ∀ v ∈ u :: l2, ∀ c ∈ operandsOf
      (opAt (l1.foldl localBackward (setGrad g t 1)) v), c ≠ u := by
    intro v hv c hc
    rw [opAt_foldl_localBackward, opAt_setGrad] at hc
    rcases List.mem_cons.mp hv with rfl | hvm
    · exact Nat.ne_of_lt (wf_spec g hw v c hc)
    · intro hcu
      have hvmem : v ∈ topoOrder g t := by
        rw [htopo]
        exact List.mem_append_left _ (List.mem_reverse.mpr hvm)
      obtain ⟨humem, hlt⟩ := topoOrder_order g t hw v hvmem c hc
      rw [hcu, hidx_u] at hlt
      have hidx_v : (topoOrder g t).indexOf v < l2.length := by
        rw [htopo, List.indexOf_append_of_mem (List.mem_reverse.mpr hvm)]
        have := List.indexOf_lt_length.mpr (List.mem_reverse.mpr hvm)
        simpa using this
      omega
  rw [gradAt_foldl_localBackward (u :: l2)
    (l1.foldl localBackward (setGrad g t 1)) u hside]

/-- Helper for C3: after a full backward pass over a well-formed graph,
the terminal's gradient is exactly `1`, whatever gradients the graph held
before the pass. -/
theorem backward_grad_terminal (g : Graph) (t : Nat) (hw : Wf g)
    (ht : t < g.length) : gradAt (backward g t) t = 1 := by
  rw [backward, gradAt_foldl_localBackward]
  · exact gradAt_setGrad_self g t 1 ht
  · intro v hv c hc
    rw [opAt_setGrad] at hc
    have hvt : v ≤ t := topoOrder_le g t v (List.mem_reverse.mp hv)
    have := wf_spec g hw v c hc
    omega

/-- C3: `backward(t)` seeds `t.grad` to exactly `1.0` by assignment inside
the pass itself — the seeded state holds gradient `1` whatever value was
there before, and since no processed node consumes the terminal, the
terminal's gradient is still exactly `1` after the whole pass, for every
prior gradient state and with no caller-side seeding. -/
theorem backward_seeds_terminal (g : Graph) (t : Nat) (hw : Wf g)
    (ht : t < g.length) :
    gradAt (setGrad g t 1) t = 1 ∧ gradAt (backward g t) t = 1 :=
  ⟨gradAt_setGrad_self g t 1 ht, backward_grad_terminal g t hw ht⟩

/-- C9: the demonstration labeling rule maps a zero-sum row to `-1` (label
is `1` exactly when the row sum is positive), and the resulting label
vector for the 8 rows is `[1, 1, -1, -1, -1, -1, -1, 1]`. -/
theorem dataset_labels :
    yData = [1, 1, -1, -1, -1, -1, -1, 1]
    ∧ (∀ row : List ℚ, row.sum = 0 → labelOf row = -1)
    ∧ (∀ row : List ℚ, labelOf row = if row.sum > 0 then 1 else -1) := by
  refine ⟨by norm_num [yData, xData, labelOf], ?_, fun row => rfl⟩
  intro row h
  simp [labelOf, h]

/-- Witness for C9 at a concrete zero-sum row of the dataset. -/
theorem dataset_labels_witness :
    (([5, -1, 0, -4] : List ℚ).sum = 0) ∧ labelOf [5, -1, 0, -4] = -1 :=
  ⟨by norm_num, dataset_labels.2.1 [5, -1, 0, -4] (by norm_num)⟩

theorem dataAt_append_lt (g h : Graph) (i : Nat) (hi : i < g.length) :
    dataAt (g ++ h) i = dataAt g i := by
  rw [dataAt, nodeAt_append_lt g h i hi, dataAt]

/-- C7: operators allocate a new node and never change the `data` of any
existing node, and the backward engine never changes any node's `data` at
all. -/
theorem operators_preserve_existing_data (tf ef : ℚ → ℚ) (g : Graph)
    (x : ℚ) (a b t i : Nat) (k : Int) (hi : i < g.length) :
    dataAt (mkLeaf g x) i = dataAt g i
    ∧ dataAt (vadd g a b) i = dataAt g i
    ∧ dataAt (vmul g a b) i = dataAt g i
    ∧ dataAt (vpow g a k) i = dataAt g i
    ∧ dataAt (vtanh tf g a) i = dataAt g i
    ∧ dataAt (vexp ef g a) i = dataAt g i
    ∧ dataAt (vneg g a) i = dataAt g i
    ∧ dataAt (vsub g a b) i = dataAt g i
    ∧ dataAt (vdiv g a b) i = dataAt g i
    ∧ ∀ j : Nat, dataAt (backward g t) j = dataAt g j := by
  have hsub : dataAt (vsub g a b) i = dataAt g i := by
    rw [vsub, vadd, dataAt_append_lt _ _ i (by simp [vneg]; omega), vneg,
      dataAt_append_lt _ _ i hi]
  have hdiv : dataAt (vdiv g a b) i = dataAt g i := by
    rw [vdiv, vmul, dataAt_append_lt _ _ i (by simp [vpow]; omega), vpow,
      dataAt_append_lt _ _ i hi]
  refine ⟨dataAt_append_lt _ _ i hi, dataAt_append_lt _ _ i hi,
    dataAt_append_lt _ _ i hi, dataAt_append_lt _ _ i hi,
    dataAt_append_lt _ _ i hi, dataAt_append_lt _ _ i hi,
    dataAt_append_lt _ _ i hi, hsub, hdiv, ?_⟩
  intro j
  rw [backward, dataAt_foldl_localBackward, dataAt_setGrad]

theorem gradAt_append_new (g : Graph) (nd : Node) (hnd : nd.grad = 0)
    (i : Nat) (hi : g.length ≤ i) : gradAt (g ++ [nd]) i = 0 := by
  rcases eq_or_lt_of_le hi with heq | hlt
  · rw [gradAt, ← heq, nodeAt_append_len, hnd]
  · rw [gradAt, nodeAt_of_ge _ i (by simp; omega)]
    rfl

theorem gradAt_append_zero (g : Graph) (nd : Node)
    (h0 : ∀ i, gradAt g i = 0) (hnd : nd.grad = 0) :
    ∀ i, gradAt (g ++ [nd]) i = 0 := by
  intro i
  rcases lt_or_ge i g.length with hi | hi
  · rw [gradAt, nodeAt_append_lt g _ i hi]
    exact h0 i
  · exact gradAt_append_new g nd hnd i hi

theorem applyStep_grads_zero (tf ef : ℚ → ℚ) (g : Graph) (s : Step)
    (h0 : ∀ i, gradAt g i = 0) : ∀ i, gradAt (applyStep tf ef g s) i = 0 := by
  cases s <;>
    first
    | exact gradAt_append_zero _ _ h0 rfl
    | exact gradAt_append_zero _ _ (gradAt_append_zero _ _ h0 rfl) rfl

/-- A two-epoch run shaped exactly like the notebook's training loop, on
one parameter leaf `w` (node 0, data `2`) and one input leaf `x` (node 1,
data `3`): both leaves are created once, before the loop (the notebook's
`x_values` comprehension runs outside the epoch loop). Epoch 1 builds the
loss `w * x` (node 2), zeroes only the parameter's gradient, and runs
`backward`. -/
def epochOneEnd : Graph :=
  backward (setGrad (vmul [⟨2, 0, Op.leaf⟩, ⟨3, 0, Op.leaf⟩] 0 1) 0 0) 2

/-- Epoch 2 of the same run: the loss is rebuilt afresh (node 3 = `w * x`)
on the same persistent leaves and only the parameter's gradient is zeroed —
the exact graph state in which the second `backward` call runs. -/
def epochTwoPreBackward : Graph := setGrad (vmul epochOneEnd 0 1) 0 0

/-- C10, counterexample: zeroing only the parameter leaves does NOT
establish the all-grads-zero precondition over the graph of the second
pass. The input leaf (node 1) is an operand of — hence reachable from —
the freshly rebuilt loss node 3, the parameter's gradient has been zeroed,
and yet the input leaf still carries the stale gradient `2` accumulated by
epoch 1's backward pass when epoch 2's `backward` is about to run: the
notebook builds its input `Value` leaves once, outside the epoch loop, so
not every non-parameter node of the pass is rebuilt afresh. -/
theorem stale_input_grad_counterexample :
    opAt epochTwoPreBackward 3 = Op.mul 0 1
    ∧ gradAt epochTwoPreBackward 0 = 0
    ∧ gradAt epochTwoPreBackward 1 = 2
    ∧ gradAt epochTwoPreBackward 1 ≠ 0 := by
  refine ⟨?_, ?_, ?_, ?_⟩ <;>
    simp [epochTwoPreBackward, epochOneEnd, backward, topoOrder, dfs, vmul, opAt,
      nodeAt, operandsOf, dataAt, gradAt, localBackward, updGrad, setGrad, setNode]

/-- C10, amended: every node a forward-pass step allocates starts with
gradient `0`, so a pass rebuilt on a base graph ALL of whose persistent
nodes — the parameter leaves and any reused input leaves, not the
parameters alone — hold gradient `0` yields a graph in which every node,
in particular every node reachable from the new loss node, has gradient
`0` when `backward` runs. -/
theorem fresh_pass_all_grads_zero (tf ef : ℚ → ℚ) (base : Graph)
    (ss : List Step) (h0 : ∀ i, gradAt base i = 0) :
    (∀ (g : Graph) (s : Step) (i : Nat), g.length ≤ i →
       gradAt (applyStep tf ef g s) i = 0)
    ∧ ∀ i, gradAt (buildFrom tf ef base ss) i = 0 := by
  constructor
  · intro g s i hi
    cases s
    case leaf => exact gradAt_append_new g _ rfl i hi
    case add => exact gradAt_append_new g _ rfl i hi
    case mul => exact gradAt_append_new g _ rfl i hi
    case powS => exact gradAt_append_new g _ rfl i hi
    case tanhS => exact gradAt_append_new g _ rfl i hi
    case expS => exact gradAt_append_new g _ rfl i hi
    case negS => exact gradAt_append_new g _ rfl i hi
    case subS a b =>
      rcases eq_or_lt_of_le hi with heq | hlt
      · rw [← heq]
        show gradAt (vsub g a b) g.length = 0
        rw [gradAt, vsub, vadd,
          nodeAt_append_lt _ _ _ (by simp only [vneg, List.length_append,
            List.length_cons, List.length_nil]; omega),
          vneg, nodeAt_append_len]
      · exact gradAt_append_new _ _ rfl i (by simp only [vsub, vadd, vneg,
          List.length_append, List.length_cons, List.length_nil] at hlt ⊢; omega)
    case divS a b =>
      rcases eq_or_lt_of_le hi with heq | hlt
      · rw [← heq]
        show gradAt (vdiv g a b) g.length = 0
        rw [gradAt, vdiv, vmul,
          nodeAt_append_lt _ _ _ (by simp only [vpow, List.length_append,
            List.length_cons, List.length_nil]; omega),
          vpow, nodeAt_append_len]
      · exact gradAt_append_new _ _ rfl i (by simp only [vdiv, vmul, vpow,
          List.length_append, List.length_cons, List.length_nil] at hlt ⊢; omega)
  · rw [buildFrom]
    induction ss generalizing base with
    | nil => exact h0
    | cons s ss ih =>
      rw [List.foldl_cons]
      exact ih (applyStep tf ef base s) (applyStep_grads_zero tf ef base s h0)

/-- Witness for C10: a fresh multiply on top of a zero-gradient parameter
leaf yields a graph whose gradients are all zero. -/
theorem fresh_pass_all_grads_zero_witness :
    (∀ i, gradAt [⟨2, 0, Op.leaf⟩] i = 0)
    ∧ ((∀ (g : Graph) (s : Step) (i : Nat), g.length ≤ i →
         gradAt (applyStep id id g s) i = 0)
       ∧ ∀ i, gradAt (buildFrom id id [⟨2, 0, Op.leaf⟩]
           [Step.leaf 3, Step.mul 0 1]) i = 0) := by
  have h0 : ∀ i, gradAt [(⟨2, 0, Op.leaf⟩ : Node)] i = 0 := by
    intro i
    cases i with
    | zero => rfl
    | succ j => rfl
  exact ⟨h0, fresh_pass_all_grads_zero id id [⟨2, 0, Op.leaf⟩]
    [Step.leaf 3, Step.mul 0 1] h0⟩

/-- C8: a Neuron's forward succeeds exactly when the input arity matches
the weight arity; a mismatch is reported as a failure, never silently
truncated or padded. -/
theorem neuron_forward_arity (tf : ℚ → ℚ) (n : Neuron) (xs : List ℚ) :
    (n.forward tf xs).isSome = true ↔ xs.length = n.weights.length := by
  rw [Neuron.forward]
  split
  · simpa
  · simpa

/-- A small concrete graph: two leaves holding `2` and `3` with stale
nonzero gradients feeding a product node, used to instantiate theorems
with hypotheses. -/
def seededGraph : Graph :=
  [⟨2, 5, Op.leaf⟩, ⟨3, 7, Op.leaf⟩, ⟨6, 9, Op.mul 0 1⟩]

/-- Witness for C7 on a concrete graph and node. -/
theorem operators_preserve_existing_data_witness :
    0 < seededGraph.length
    ∧ (dataAt (mkLeaf seededGraph 7) 0 = dataAt seededGraph 0
       ∧ dataAt (vadd seededGraph 0 1) 0 = dataAt seededGraph 0
       ∧ dataAt (vmul seededGraph 0 1) 0 = dataAt seededGraph 0
       ∧ dataAt (vpow seededGraph 0 3) 0 = dataAt seededGraph 0
       ∧ dataAt (vtanh id seededGraph 0) 0 = dataAt seededGraph 0
       ∧ dataAt (vexp id seededGraph 0) 0 = dataAt seededGraph 0
       ∧ dataAt (vneg seededGraph 0) 0 = dataAt seededGraph 0
       ∧ dataAt (vsub seededGraph 0 1) 0 = dataAt seededGraph 0
       ∧ dataAt (vdiv seededGraph 0 1) 0 = dataAt seededGraph 0
       ∧ ∀ j : Nat, dataAt (backward seededGraph 2) j = dataAt seededGraph j) :=
  ⟨by decide,
    operators_preserve_existing_data id id seededGraph 7 0 1 2 0 3 (by decide)⟩

/-- Witness for C3 on a concrete graph with stale nonzero gradients. -/
theorem backward_seeds_terminal_witness :
    Wf seededGraph ∧ 2 < seededGraph.length
    ∧ (gradAt (setGrad seededGraph 2 1) 2 = 1
       ∧ gradAt (backward seededGraph 2) 2 = 1) :=
  ⟨by decide, by decide, backward_seeds_terminal seededGraph 2 (by decide) (by decide)⟩

/-- Witness for C2 on a concrete graph. -/
theorem backward_consumers_first_witness :
    Wf seededGraph
    ∧ ((∀ u ∈ topoOrder seededGraph 2, ∀ c ∈ operandsOf (opAt seededGraph u),
          c ∈ topoOrder seededGraph 2
          ∧ (topoOrder seededGraph 2).indexOf c < (topoOrder seededGraph 2).indexOf u)
       ∧ (∀ u l1 l2, (topoOrder seededGraph 2).reverse = l1 ++ u :: l2 →
          gradAt (l1.foldl localBackward (setGrad seededGraph 2 1)) u
            = gradAt (backward seededGraph 2) u)) :=
  ⟨by decide, backward_consumers_first seededGraph 2 (by decide)⟩

/-- C1: each operator computes its forward value from the operand data,
and the `local_backward` rule it binds accumulates exactly the table's
local gradient into its operands:  add accumulates `out.grad` into both
operands; multiply accumulates `b.data * out.grad` and `a.data * out.grad`;
tanh accumulates `(1 - out.data^2) * out.grad`; power by constant `k`
accumulates `k * a.data^(k-1) * out.grad`; exponential accumulates
`out.data * out.grad`; negate accumulates `-out.grad`. -/
theorem operator_rules (tf ef : ℚ → ℚ) (g h : Graph) (a b i : Nat) (k : Int)
    (ha : a < h.length) (hb : b < h.length) (hab : a ≠ b) :
    (dataAt (vadd g a b) g.length = dataAt g a + dataAt g b
     ∧ dataAt (vmul g a b) g.length = dataAt g a * dataAt g b
     ∧ dataAt (vtanh tf g a) g.length = tf (dataAt g a)
     ∧ dataAt (vpow g a k) g.length = dataAt g a ^ k
     ∧ dataAt (vexp ef g a) g.length = ef (dataAt g a)
     ∧ dataAt (vneg g a) g.length = -dataAt g a)
    ∧ ((opAt h i = Op.add a b →
          gradAt (localBackward h i) a = gradAt h a + gradAt h i
          ∧ gradAt (localBackward h i) b = gradAt h b + gradAt h i)
       ∧ (opAt h i = Op.mul a b →
          gradAt (localBackward h i) a = gradAt h a + dataAt h b * gradAt h i
          ∧ gradAt (localBackward h i) b = gradAt h b + dataAt h a * gradAt h i)
       ∧ (opAt h i = Op.tanhOp a →
          gradAt (localBackward h i) a
            = gradAt h a + (1 - dataAt h i ^ 2) * gradAt h i)
       ∧ (opAt h i = Op.powc a k →
          gradAt (localBackward h i) a
            = gradAt h a + (k : ℚ) * dataAt h a ^ (k - 1) * gradAt h i)
       ∧ (opAt h i = Op.expOp a →
          gradAt (localBackward h i) a = gradAt h a + dataAt h i * gradAt h i)
       ∧ (opAt h i = Op.negOp a →
          gradAt (localBackward h i) a = gradAt h a + -gradAt h i)) := by
  have hb' : b < (updGrad h a (gradAt h i)).length := by
    rw [length_updGrad]; exact hb
  have hb'' : b < (updGrad h a (dataAt h b * gradAt h i)).length := by
    rw [length_updGrad]; exact hb
  refine ⟨⟨?_, ?_, ?_, ?_, ?_, ?_⟩, ?_, ?_, ?_, ?_, ?_, ?_⟩
  · rw [vadd, dataAt, nodeAt_append_len]
  · rw [vmul, dataAt, nodeAt_append_len]
  · rw [vtanh, dataAt, nodeAt_append_len]
  · rw [vpow, dataAt, nodeAt_append_len]
  · rw [vexp, dataAt, nodeAt_append_len]
  · rw [vneg, dataAt, nodeAt_append_len]
  · intro hop
    rw [localBackward_add h i a b hop]
    refine ⟨?_, ?_⟩
    · rw [gradAt_updGrad_ne _ _ _ _ hab, gradAt_updGrad_self _ _ _ ha]
    · rw [gradAt_updGrad_self _ _ _ hb', gradAt_updGrad_ne _ _ _ _ hab.symm]
  · intro hop
    rw [localBackward_mul h i a b hop]
    refine ⟨?_, ?_⟩
    · rw [gradAt_updGrad_ne _ _ _ _ hab, gradAt_updGrad_self _ _ _ ha]
    · rw [gradAt_updGrad_self _ _ _ hb'', gradAt_updGrad_ne _ _ _ _ hab.symm]
  · intro hop
    rw [localBackward_tanh h i a hop, gradAt_updGrad_self _ _ _ ha]
  · intro hop
    rw [localBackward_pow h i a k hop, gradAt_updGrad_self _ _ _ ha]
  · intro hop
    rw [localBackward_exp h i a hop, gradAt_updGrad_self _ _ _ ha]
  · intro hop
    rw [localBackward_neg h i a hop, gradAt_updGrad_self _ _ _ ha]

/-- Witness for C1 at concrete operands and a concrete carrying graph. -/
theorem operator_rules_witness :
    (0 < seededGraph.length ∧ 1 < seededGraph.length ∧ (0 : Nat) ≠ 1)
    ∧ ((dataAt (vadd seededGraph 0 1) seededGraph.length
          = dataAt seededGraph 0 + dataAt seededGraph 1
        ∧ dataAt (vmul seededGraph 0 1) seededGraph.length
          = dataAt seededGraph 0 * dataAt seededGraph 1
        ∧ dataAt (vtanh id seededGraph 0) seededGraph.length = id (dataAt seededGraph 0)
        ∧ dataAt (vpow seededGraph 0 2) seededGraph.length = dataAt seededGraph 0 ^ (2 : Int)
        ∧ dataAt (vexp id seededGraph 0) seededGraph.length = id (dataAt seededGraph 0)
        ∧ dataAt (vneg seededGraph 0) seededGraph.length = -dataAt seededGraph 0)
       ∧ ((opAt seededGraph 2 = Op.add 0 1 →
             gradAt (localBackward seededGraph 2) 0
               = gradAt seededGraph 0 + gradAt seededGraph 2
             ∧ gradAt (localBackward seededGraph 2) 1
               = gradAt seededGraph 1 + gradAt seededGraph 2)
          ∧ (opAt seededGraph 2 = Op.mul 0 1 →
             gradAt (localBackward seededGraph 2) 0
               = gradAt seededGraph 0 + dataAt seededGraph 1 * gradAt seededGraph 2
             ∧ gradAt (localBackward seededGraph 2) 1
               = gradAt seededGraph 1 + dataAt seededGraph 0 * gradAt seededGraph 2)
          ∧ (opAt seededGraph 2 = Op.tanhOp 0 →
             gradAt (localBackward seededGraph 2) 0
               = gradAt seededGraph 0 + (1 - dataAt seededGraph 2 ^ 2) * gradAt seededGraph 2)
          ∧ (opAt seededGraph 2 = Op.powc 0 2 →
             gradAt (localBackward seededGraph 2) 0
               = gradAt seededGraph 0
                 + ((2 : Int) : ℚ) * dataAt seededGraph 0 ^ ((2 : Int) - 1) * gradAt seededGraph 2)
          ∧ (opAt seededGraph 2 = Op.expOp 0 →
             gradAt (localBackward seededGraph 2) 0
               = gradAt seededGraph 0 + dataAt seededGraph 2 * gradAt seededGraph 2)
          ∧ (opAt seededGraph 2 = Op.negOp 0 →
             gradAt (localBackward seededGraph 2) 0
               = gradAt seededGraph 0 + -gradAt seededGraph 2))) :=
  ⟨⟨by decide, by decide, by decide⟩,
    operator_rules id id seededGraph seededGraph 0 1 2 2
      (by decide) (by decide) (by decide)⟩

/-- A diamond graph over symbolic leaf data: one leaf (node 0) feeding two
different multiply consumers (nodes 3 and 4) whose outputs are summed into
the terminal (node 5). -/
def diamondG (d0 d1 d2 : ℚ) : Graph :=
  vadd (vmul (vmul (mkLeaf (mkLeaf (mkLeaf [] d0) d1) d2) 0 1) 0 2) 3 4

/-- A single-path graph: the leaf (node 0) feeding one multiply consumer
(node 2, the terminal). -/
def pathG (d0 d1 : ℚ) : Graph := vmul (mkLeaf (mkLeaf [] d0) d1) 0 1

/-- C4: on a diamond graph whose gradients are all `0` before the pass
(as they are at construction), the shared leaf's gradient after
`backward()` equals the sum of the two single-path gradients, and the
visited-set topological sort records the shared leaf (and every node)
exactly once. -/
theorem diamond_gradient_accumulates (d0 d1 d2 : ℚ) :
    (∀ i, gradAt (diamondG d0 d1 d2) i = 0)
    ∧ gradAt (backward (diamondG d0 d1 d2) 5) 0
        = gradAt (backward (pathG d0 d1) 2) 0 + gradAt (backward (pathG d0 d2) 2) 0
    ∧ (topoOrder (diamondG d0 d1 d2) 5).count 0 = 1
    ∧ (topoOrder (diamondG d0 d1 d2) 5).Nodup := by
  have htopo : topoOrder (diamondG d0 d1 d2) 5 = [0, 1, 3, 2, 4, 5] := by
    simp [topoOrder, dfs, diamondG, vadd, vmul, mkLeaf, opAt, nodeAt, operandsOf, dataAt]
  refine ⟨?_, ?_, ?_, ?_⟩
  · intro i
    rcases i with _ | (_ | (_ | (_ | (_ | (_ | j))))) <;> rfl
  · simp [backward, topoOrder, dfs, diamondG, pathG, vadd, vmul, mkLeaf, opAt, nodeAt,
      operandsOf, dataAt, gradAt, localBackward, updGrad, setGrad, setNode]
    ring
  · rw [htopo]
    decide
  · rw [htopo]
    decide

/-- C5: subtraction is the composition of negate and add, division the
composition of power `-1` and multiply — both definitionally, with the
expected forward data, and with the gradients derived from the composed
rules: backward through `a - b` accumulates `+1` into `a` and `-1` into
`b`; backward through `a / b` accumulates `1/b` into `a` and `-(a/b^2)`
into `b`. -/
theorem sub_div_composition (g : Graph) (a b : Nat) (x y : ℚ)
    (ha : a < g.length) (_hb : b < g.length) (hy : y ≠ 0) :
    vsub g a b = vadd (vneg g b) a g.length
    ∧ vdiv g a b = vmul (vpow g b (-1)) a g.length
    ∧ dataAt (vsub g a b) (g.length + 1) = dataAt g a - dataAt g b
    ∧ dataAt (vdiv g a b) (g.length + 1) = dataAt g a / dataAt g b
    ∧ (gradAt (backward (vsub (mkLeaf (mkLeaf [] x) y) 0 1) 3) 0 = 1
       ∧ gradAt (backward (vsub (mkLeaf (mkLeaf [] x) y) 0 1) 3) 1 = -1)
    ∧ (gradAt (backward (vdiv (mkLeaf (mkLeaf [] x) y) 0 1) 3) 0 = 1 / y
       ∧ gradAt (backward (vdiv (mkLeaf (mkLeaf [] x) y) 0 1) 3) 1 = -(x / y ^ 2)) := by
  have h1 : (vneg g b).length = g.length + 1 := by simp [vneg]
  have h2 : (vpow g b (-1)).length = g.length + 1 := by simp [vpow]
  have happ : ∀ (g' : Graph) (nd : Node), dataAt (g' ++ [nd]) g'.length = nd.data :=
    fun g' nd => by rw [dataAt, nodeAt_append_len]
  refine ⟨rfl, rfl, ?_, ?_, ⟨?_, ?_⟩, ⟨?_, ?_⟩⟩
  · rw [vsub, vadd, dataAt, ← h1, nodeAt_append_len]
    show dataAt (vneg g b) a + dataAt (vneg g b) g.length = _
    rw [vneg, dataAt_append_lt g _ a ha, happ]
    show dataAt g a + -dataAt g b = _
    ring
  · rw [vdiv, vmul, dataAt, ← h2, nodeAt_append_len]
    show dataAt (vpow g b (-1)) a * dataAt (vpow g b (-1)) g.length = _
    rw [vpow, dataAt_append_lt g _ a ha, happ]
    show dataAt g a * dataAt g b ^ (-1 : ℤ) = _
    rw [zpow_neg_one, div_eq_mul_inv]
  · simp [backward, topoOrder, dfs, vsub, vadd, vneg, mkLeaf, opAt, nodeAt,
      operandsOf, dataAt, gradAt, localBackward, updGrad, setGrad, setNode]
  · simp [backward, topoOrder, dfs, vsub, vadd, vneg, mkLeaf, opAt, nodeAt,
      operandsOf, dataAt, gradAt, localBackward, updGrad, setGrad, setNode]
  · simp [backward, topoOrder, dfs, vdiv, vmul, vpow, mkLeaf, opAt, nodeAt,
      operandsOf, dataAt, gradAt, localBackward, updGrad, setGrad, setNode]
  · simp [backward, topoOrder, dfs, vdiv, vmul, vpow, mkLeaf, opAt, nodeAt,
      operandsOf, dataAt, gradAt, localBackward, updGrad, setGrad, setNode]
    field_simp
    exact Or.inl (by norm_cast)

theorem neuronsForward_some (tf : ℚ → ℚ) (ns : List Neuron) (xs : List ℚ)
    (h : ∀ n ∈ ns, xs.length = n.weights.length) :
    ∃ ys, neuronsForward tf ns xs = some ys ∧ ys.length = ns.length := by
  induction ns with
  | nil => exact ⟨[], rfl, rfl⟩
  | cons n ns ih =>
    obtain ⟨ys, hys, hlen⟩ := ih fun m hm => h m (List.mem_cons_of_mem n hm)
    have hn := h n (List.mem_cons_self n ns)
    refine ⟨tf (((n.weights.zip xs).map fun p => p.1 * p.2).sum + n.bias) :: ys, ?_, ?_⟩
    · rw [neuronsForward, Neuron.forward, if_pos hn, hys]
    · simp [hlen]

theorem mkLayer_weights (rnd : Nat → ℚ) (s m k : Nat) :
    ∀ n ∈ (mkLayer rnd s m k).neurons, n.weights.length = m := by
  intro n hn
  simp only [mkLayer, List.mem_map, List.mem_range] at hn
  obtain ⟨j, hj, rfl⟩ := hn
  simp [mkNeuron]

theorem layer_forward_len (tf : ℚ → ℚ) (rnd : Nat → ℚ) (s m k : Nat)
    (xs : List ℚ) (hx : xs.length = m) :
    ∃ ys, (mkLayer rnd s m k).forward tf xs = some ys ∧ ys.length = k := by
  obtain ⟨ys, h1, h2⟩ := neuronsForward_some tf (mkLayer rnd s m k).neurons xs
    fun n hn => by rw [mkLayer_weights rnd s m k n hn, hx]
  exact ⟨ys, h1, by rw [h2]; simp [mkLayer]⟩

theorem params_foldr_len (ns : List Neuron) (m : Nat)
    (h : ∀ n ∈ ns, n.parameters.length = m + 1) :
    (ns.foldr (fun n acc => n.parameters ++ acc) []).length = ns.length * (m + 1) := by
  induction ns with
  | nil => simp
  | cons n ns ih =>
    simp only [List.foldr_cons, List.length_append, List.length_cons,
      h n (List.mem_cons_self n ns), ih fun m' hm' => h m' (List.mem_cons_of_mem n hm')]
    ring

theorem mkLayer_params_len (rnd : Nat → ℚ) (s m k : Nat) :
    (mkLayer rnd s m k).parameters.length = k * (m + 1) := by
  rw [Layer.parameters, params_foldr_len _ m
    (fun n hn => by
      simp only [mkLayer, List.mem_map, List.mem_range] at hn
      obtain ⟨j, hj, rfl⟩ := hn
      simp [Neuron.parameters, mkNeuron])]
  simp [mkLayer]

/-- C6: `MLP(input_size=4, hidden_sizes=[5,5], output_size=1)` applied to
any 4-element input returns exactly one output value (not a list), and its
parameter list has exactly `(4*5+5) + (5*5+5) + (5*1+1) = 61` entries. -/
theorem mlp_shape (tf : ℚ → ℚ) (rnd : Nat → ℚ) (xs : List ℚ)
    (hx : xs.length = 4) :
    (∃ v, (mkMLP rnd 4 [5, 5] 1).forward tf xs = some (Out.single v))
    ∧ (mkMLP rnd 4 [5, 5] 1).parameters.length = 61 := by
  have hlayers : (mkMLP rnd 4 [5, 5] 1).layers
      = [mkLayer rnd 0 4 5, mkLayer rnd 25 5 5, mkLayer rnd 55 5 1] := by
    simp [mkMLP, mkLayers]
  constructor
  · obtain ⟨ys1, h1, e1⟩ := layer_forward_len tf rnd 0 4 5 xs hx
    obtain ⟨ys2, h2, e2⟩ := layer_forward_len tf rnd 25 5 5 ys1 e1
    obtain ⟨ys3, h3, e3⟩ := layer_forward_len tf rnd 55 5 1 ys2 e2
    obtain ⟨v, rfl⟩ := List.length_eq_one.mp e3
    refine ⟨v, ?_⟩
    rw [MLP.forward, hlayers]
    simp only [layersForward, h1, h2, h3]
    rfl
  · rw [MLP.parameters, hlayers]
    simp only [List.foldr_cons, List.foldr_nil, List.length_append,
      mkLayer_params_len, List.length_nil]

/-- Witness for C6 at a concrete 4-element input. -/
theorem mlp_shape_witness :
    (([0, 0, 0, 0] : List ℚ).length = 4)
    ∧ ((∃ v, (mkMLP (fun _ => 0) 4 [5, 5] 1).forward id [0, 0, 0, 0]
          = some (Out.single v))
       ∧ (mkMLP (fun _ => 0) 4 [5, 5] 1).parameters.length = 61) :=
  ⟨rfl, mlp_shape id (fun _ => 0) [0, 0, 0, 0] rfl⟩

/-- Witness for C5 at concrete operands and data. -/
theorem sub_div_composition_witness :
    (0 < seededGraph.length ∧ 1 < seededGraph.length ∧ (2 : ℚ) ≠ 0)
    ∧ (vsub seededGraph 0 1 = vadd (vneg seededGraph 1) 0 seededGraph.length
       ∧ vdiv seededGraph 0 1 = vmul (vpow seededGraph 1 (-1)) 0 seededGraph.length
       ∧ dataAt (vsub seededGraph 0 1) (seededGraph.length + 1)
           = dataAt seededGraph 0 - dataAt seededGraph 1
       ∧ dataAt (vdiv seededGraph 0 1) (seededGraph.length + 1)
           = dataAt seededGraph 0 / dataAt seededGraph 1
       ∧ (gradAt (backward (vsub (mkLeaf (mkLeaf [] 4) 2) 0 1) 3) 0 = 1
          ∧ gradAt (backward (vsub (mkLeaf (mkLeaf [] 4) 2) 0 1) 3) 1 = -1)
       ∧ (gradAt (backward (vdiv (mkLeaf (mkLeaf [] 4) 2) 0 1) 3) 0 = 1 / 2
          ∧ gradAt (backward (vdiv (mkLeaf (mkLeaf [] 4) 2) 0 1) 3) 1
              = -((4 : ℚ) / 2 ^ 2))) :=
  ⟨⟨by decide, by decide, by decide⟩,
    sub_div_composition seededGraph 0 1 4 2 (by decide) (by decide) (by decide)⟩

end Micrograd
